import Mathlib

/-!
Verification of the TestRail title-synchronization tool
(`caseSynchronization/updateTitlesTestRail.js`).

Strings are modelled as `List Char`.  JavaScript regular-expression
whitespace (`\s`) and `String.prototype.trim` whitespace coincide on the
set modelled by `isJsWhitespace` below.
-/

/-- Convert a Lean string literal to the `List Char` representation used
throughout this development. -/
def s2l (s : String) : List Char := s.data

/-- A single-quote character (ASCII 39), written via `Char.ofNat`. -/
def squote : Char := Char.ofNat 39

/-- A double-quote character (ASCII 34). -/
def dquote : Char := Char.ofNat 34

/-- Left brace character (ASCII 123). -/
def lbrace : Char := Char.ofNat 123

/-- Right brace character (ASCII 125). -/
def rbrace : Char := Char.ofNat 125

/-- The JavaScript whitespace class: the characters matched by `\s` in a
regular expression, which is also the set trimmed by `trim()`. -/
def isJsWhitespace (c : Char) : Bool :=
  c = ' ' || c = '\t' || c = '\n' || c = '\r' ||
  c = Char.ofNat 0x0b || c = Char.ofNat 0x0c ||
  c = Char.ofNat 0xa0 || c = Char.ofNat 0x1680 ||
  (Char.ofNat 0x2000 ≤ c && c ≤ Char.ofNat 0x200a) ||
  c = Char.ofNat 0x2028 || c = Char.ofNat 0x2029 ||
  c = Char.ofNat 0x202f || c = Char.ofNat 0x205f ||
  c = Char.ofNat 0x3000 || c = Char.ofNat 0xfeff

/-- Drop trailing whitespace: the right half of JavaScript `trim()`. -/
def rtrimWs (l : List Char) : List Char :=
  (l.reverse.dropWhile isJsWhitespace).reverse

/-- JavaScript `String.prototype.trim`: drop leading and trailing
whitespace. -/
def jsTrim (l : List Char) : List Char :=
  rtrimWs (l.dropWhile isJsWhitespace)

/-- The effect of `title.replace(new RegExp(` ^id\s* `), '')` for an
identifier `id` of the form `C` + digits (no regex metacharacters): if
`id` is a prefix of `title`, remove it together with the immediately
following whitespace run; otherwise leave `title` unchanged. -/
def stripLeadingId (title id : List Char) : List Char :=
  if List.isPrefixOf id title then
    (title.drop id.length).dropWhile isJsWhitespace
  else title

/-- `cleanTestCaseTitle(title, id)` from `updateTitlesTestRail.js`:
`title.replace(new RegExp(` ^id\s* `), '').trim()`. -/
def cleanTestCaseTitle (title id : List Char) : List Char :=
  jsTrim (stripLeadingId title id)

/-- Boolean recognizer for identifiers of the form `C` + one or more
decimal digits (the `C\d+` format). -/
def isCaseId (id : List Char) : Bool :=
  match id with
  | [] => false
  | c :: ds => decide (c = 'C') && !ds.isEmpty && ds.all Char.isDigit

/-! ### Basic list lemmas used by the normalizer proofs -/

/-- `dropWhile` is idempotent. -/
theorem dropWhile_idem (p : α → Bool) (l : List α) :
    (l.dropWhile p).dropWhile p = l.dropWhile p := by
  induction l with
  | nil => rfl
  | cons a l ih =>
    by_cases h : p a
    · simp [List.dropWhile_cons, h, ih]
    · simp [List.dropWhile_cons, h]

/-- `dropWhile` never lengthens a list. -/
theorem dropWhile_length_le (p : α → Bool) (l : List α) :
    (l.dropWhile p).length ≤ l.length := by
  induction l with
  | nil => simp
  | cons a l ih =>
    by_cases h : p a
    · rw [List.dropWhile_cons_of_pos h]
      exact ih.trans (by simp)
    · simp [List.dropWhile_cons_of_neg h]

/-- If `dropWhile` leaves a cons cell unchanged, the predicate fails on
its head. -/
theorem dropWhile_cons_self {p : α → Bool} {c : α} {l : List α}
    (h : List.dropWhile p (c :: l) = c :: l) : p c = false := by
  by_cases hc : p c
  · exfalso
    rw [List.dropWhile_cons_of_pos hc] at h
    have hlen : (List.dropWhile p l).length ≤ l.length := dropWhile_length_le p l
    rw [h] at hlen
    simp at hlen
  · simpa using hc

/-- If `dropWhile` fixes `a ++ u`, it also fixes the prefix `a`. -/
theorem dropWhile_fix_of_append {p : α → Bool} {a u : List α}
    (h : List.dropWhile p (a ++ u) = a ++ u) : List.dropWhile p a = a := by
  cases a with
  | nil => rfl
  | cons c a =>
    rw [List.cons_append] at h
    have hc : p c = false := dropWhile_cons_self h
    simp [List.dropWhile_cons, hc]

/-- Right trimming leaves a final non-whitespace character in place. -/
theorem rtrimWs_append_singleton {x : List Char} {c : Char}
    (hc : isJsWhitespace c = false) : rtrimWs (x ++ [c]) = x ++ [c] := by
  unfold rtrimWs
  rw [List.reverse_append, List.reverse_singleton, List.singleton_append,
    List.dropWhile_cons_of_neg (by simp [hc]), List.reverse_cons,
    List.reverse_reverse]

/-- Right trimming is idempotent. -/
theorem rtrimWs_idem (l : List Char) : rtrimWs (rtrimWs l) = rtrimWs l := by
  unfold rtrimWs
  rw [List.reverse_reverse, dropWhile_idem]

/-- `rtrimWs l` is a prefix of `l`: the dropped part is a suffix. -/
theorem rtrimWs_append (l : List Char) :
    rtrimWs l ++ (l.reverse.takeWhile isJsWhitespace).reverse = l := by
  unfold rtrimWs
  rw [← List.reverse_append, List.takeWhile_append_dropWhile,
    List.reverse_reverse]

/-- Right trimming preserves the absence of leading whitespace. -/
theorem dropWhile_rtrimWs {l : List Char}
    (h : l.dropWhile isJsWhitespace = l) :
    (rtrimWs l).dropWhile isJsWhitespace = rtrimWs l := by
  have := rtrimWs_append l
  apply dropWhile_fix_of_append (u := (l.reverse.takeWhile isJsWhitespace).reverse)
  rw [this, h]

/-- `jsTrim` is idempotent. -/
theorem jsTrim_idem (l : List Char) : jsTrim (jsTrim l) = jsTrim l := by
  unfold jsTrim
  rw [dropWhile_rtrimWs (dropWhile_idem _ _), rtrimWs_idem]

/-- A list is a `isPrefixOf`-prefix of itself followed by anything. -/
theorem isPrefixOf_self_append (l t : List Char) :
    List.isPrefixOf l (l ++ t) = true := by
  induction l with
  | nil => simp [List.isPrefixOf]
  | cons a l ih => simp [List.isPrefixOf, ih]

/-- `needle` occurs as a contiguous segment of `hay`. -/
def containsSeg (needle hay : List Char) : Bool :=
  match hay with
  | [] => needle.isEmpty
  | c :: t => List.isPrefixOf needle (c :: t) || containsSeg needle t

/-- A string that occurs nowhere as a segment is in particular not a
prefix. -/
theorem not_isPrefixOf_of_not_containsSeg {needle hay : List Char}
    (h : containsSeg needle hay = false) :
    List.isPrefixOf needle hay = false := by
  cases hay with
  | nil =>
    cases needle with
    | nil => simp [containsSeg] at h
    | cons a t => simp [List.isPrefixOf]
  | cons c t =>
    simp only [containsSeg, Bool.or_eq_false_iff] at h
    exact h.1

-- Sanity checks on the normalizer (spec §4.1 edge cases).
example : cleanTestCaseTitle (s2l "") (s2l "C7") = s2l "" := by decide
example : cleanTestCaseTitle (s2l "C7") (s2l "C7") = s2l "" := by decide
example : cleanTestCaseTitle (s2l "C7   rest") (s2l "C7") = s2l "rest" := by decide
example : cleanTestCaseTitle (s2l "C7rest") (s2l "C7") = s2l "rest" := by decide
example : cleanTestCaseTitle (s2l "  C7 rest") (s2l "C7") = s2l "C7 rest" := by decide

/-- Claim C2 (counterexample): for `id = C1` and `s = "a "` (a remainder
with trailing whitespace) the code does not return the remainder
byte-for-byte: the final `trim()` removes the trailing space. -/
theorem clean_title_trailing_ws_counterexample :
    cleanTestCaseTitle (s2l "C1" ++ s2l "a ") (s2l "C1") = s2l "a" ∧
    cleanTestCaseTitle (s2l "C1" ++ s2l "a ") (s2l "C1") ≠ s2l "a " := by
  decide

/-- Claim C2 (amended): for every identifier of the form `C` + digits
and every string `s`, `cleanTestCaseTitle (id ++ s) id` removes exactly
the leading `id` together with the whitespace run immediately following
it, and returns the remainder of `s` intact except that trailing
whitespace is trimmed from its end. -/
theorem clean_title_strips_id_and_ws (id s : List Char)
    (_h : isCaseId id = true) :
    cleanTestCaseTitle (id ++ s) id
      = rtrimWs (s.dropWhile isJsWhitespace) := by
  unfold cleanTestCaseTitle stripLeadingId
  rw [if_pos (isPrefixOf_self_append id s), List.drop_left]
  unfold jsTrim
  rw [dropWhile_idem]

/-- Witness for `clean_title_strips_id_and_ws` at `id = C1`,
`s = "  rest "`. -/
theorem clean_title_strips_id_and_ws_witness :
    isCaseId (s2l "C1") = true ∧
    cleanTestCaseTitle (s2l "C1" ++ s2l "  rest ") (s2l "C1")
      = rtrimWs ((s2l "  rest ").dropWhile isJsWhitespace) :=
  ⟨by decide, clean_title_strips_id_and_ws (s2l "C1") (s2l "  rest ") (by decide)⟩

/-- Claim C6 (counterexample): with two leading spaces before the
identifier the identifier is indeed not stripped, but the title is not
returned unchanged either — the final `trim()` removes the outer
whitespace. -/
theorem leading_ws_counterexample :
    cleanTestCaseTitle (s2l "  C1 rest") (s2l "C1") = s2l "C1 rest" ∧
    cleanTestCaseTitle (s2l "  C1 rest") (s2l "C1") ≠ s2l "  C1 rest" := by
  decide

/-- Claim C6 (amended): for every identifier of the form `C` + digits,
leading whitespace before the identifier defeats the prefix match, so
the identifier is not stripped; the result is the input with its outer
whitespace trimmed, i.e. `id ++ " rest"`. -/
theorem leading_ws_defeats_strip (id : List Char) (h : isCaseId id = true) :
    cleanTestCaseTitle (' ' :: ' ' :: (id ++ (' ' :: s2l "rest"))) id
      = id ++ (' ' :: s2l "rest") := by
  cases id with
  | nil => simp [isCaseId] at h
  | cons c ds =>
    simp only [isCaseId, Bool.and_eq_true, decide_eq_true_eq] at h
    obtain ⟨⟨hc, -⟩, -⟩ := h
    subst hc
    have hpre : List.isPrefixOf ('C' :: ds)
        (' ' :: ' ' :: (('C' :: ds) ++ (' ' :: s2l "rest"))) = false := by
      simp only [List.isPrefixOf]
      rw [show (('C' : Char) == ' ') = false from rfl]
      simp
    unfold cleanTestCaseTitle stripLeadingId
    rw [if_neg (by simp [hpre])]
    unfold jsTrim
    rw [List.cons_append,
      List.dropWhile_cons_of_pos (by decide),
      List.dropWhile_cons_of_pos (by decide),
      List.dropWhile_cons_of_neg (by decide)]
    have key : ('C' : Char) :: (ds ++ ' ' :: s2l "rest")
        = (('C' :: ds) ++ [' ', 'r', 'e', 's']) ++ ['t'] := by
      simp only [List.append_assoc]
      rfl
    rw [key, rtrimWs_append_singleton (by decide)]

/-- Witness for `leading_ws_defeats_strip` at `id = C1`. -/
theorem leading_ws_defeats_strip_witness :
    isCaseId (s2l "C1") = true ∧
    cleanTestCaseTitle (' ' :: ' ' :: (s2l "C1" ++ (' ' :: s2l "rest")))
        (s2l "C1")
      = s2l "C1" ++ (' ' :: s2l "rest") :=
  ⟨by decide, leading_ws_defeats_strip (s2l "C1") (by decide)⟩

/-- Claim C7: `cleanTestCaseTitle` is idempotent whenever the identifier
does not occur inside the already-cleaned remainder. -/
theorem clean_title_idempotent (t id : List Char)
    (h : containsSeg id (cleanTestCaseTitle t id) = false) :
    cleanTestCaseTitle (cleanTestCaseTitle t id) id
      = cleanTestCaseTitle t id := by
  have hpre := not_isPrefixOf_of_not_containsSeg h
  have h1 : stripLeadingId (cleanTestCaseTitle t id) id
      = cleanTestCaseTitle t id := by
    unfold stripLeadingId
    rw [if_neg (by simp [hpre])]
  calc cleanTestCaseTitle (cleanTestCaseTitle t id) id
      = jsTrim (stripLeadingId (cleanTestCaseTitle t id) id) := rfl
    _ = jsTrim (cleanTestCaseTitle t id) := by rw [h1]
    _ = jsTrim (jsTrim (stripLeadingId t id)) := rfl
    _ = jsTrim (stripLeadingId t id) := jsTrim_idem _
    _ = cleanTestCaseTitle t id := rfl

/-- Witness for `clean_title_idempotent` at
`t = "C1 foo"`, `id = "C1"`. -/
theorem clean_title_idempotent_witness :
    containsSeg (s2l "C1") (cleanTestCaseTitle (s2l "C1 foo") (s2l "C1"))
        = false ∧
    cleanTestCaseTitle (cleanTestCaseTitle (s2l "C1 foo") (s2l "C1"))
        (s2l "C1")
      = cleanTestCaseTitle (s2l "C1 foo") (s2l "C1") :=
  ⟨by decide, clean_title_idempotent (s2l "C1 foo") (s2l "C1") (by decide)⟩

/-! ### Data model of the synchronizer (`main` in updateTitlesTestRail.js) -/

/-- The per-case record built by `analyzeTestFile`: cleaned title,
original title and source file path. -/
structure FileEntry where
  title : List Char
  originalTitle : List Char
  filePath : List Char
deriving DecidableEq, Repr

/-- The remote record fetched from TestRail; only its `title` field is
used by the comparison. -/
structure RemoteCase where
  title : List Char
deriving DecidableEq, Repr

/-- The difference record pushed by `main` when cleaned titles differ. -/
structure Difference where
  id : List Char
  caseNumber : List Char
  filePath : List Char
  fileTitle : List Char
  fileOriginalTitle : List Char
  testRailTitle : List Char
  testRailCleanTitle : List Char
deriving DecidableEq, Repr

/-- The error record pushed by `main` when the remote lookup fails. -/
structure ErrorRec where
  id : List Char
  filePath : List Char
  fileTitle : List Char
deriving DecidableEq, Repr

/-- `testId.replace('C', '')`: remove the first occurrence of the
character `C` from the identifier. -/
def caseNumberOf (testId : List Char) : List Char :=
  match testId with
  | [] => []
  | c :: t => if c = 'C' then t else c :: caseNumberOf t

/-- The comparison step of `main`: normalize the remote title with the
same normalizer and the same identifier, and produce a `Difference`
exactly when the result differs from the local cleaned title. -/
def compareCase (testId : List Char) (fileData : FileEntry)
    (remote : RemoteCase) : Option Difference :=
  let cleanTestRailTitle := cleanTestCaseTitle remote.title testId
  if cleanTestRailTitle = fileData.title then none
  else some
    { id := testId
      caseNumber := caseNumberOf testId
      filePath := fileData.filePath
      fileTitle := fileData.title
      fileOriginalTitle := fileData.originalTitle
      testRailTitle := remote.title
      testRailCleanTitle := cleanTestRailTitle }

/-- The two field equations every produced `Difference` satisfies. -/
def diffFieldsOk (testId : List Char) (fileData : FileEntry)
    (remote : RemoteCase) (d : Difference) : Prop :=
  d.testRailCleanTitle = cleanTestCaseTitle remote.title testId ∧
  d.fileTitle = fileData.title

/-- The concrete local record of end-to-end scenario 3. -/
def scenario3Local : FileEntry :=
  { title := s2l "Checkout flow"
    originalTitle := s2l "C1234 Checkout flow"
    filePath := s2l "checkout.test.ts" }

/-- The concrete remote record of end-to-end scenario 3. -/
def scenario3Remote : RemoteCase := { title := s2l "C1234 Checkout flow v2" }

/-- The difference record produced in end-to-end scenario 3. -/
def scenario3Diff : Difference :=
  { id := s2l "C1234"
    caseNumber := s2l "1234"
    filePath := s2l "checkout.test.ts"
    fileTitle := s2l "Checkout flow"
    fileOriginalTitle := s2l "C1234 Checkout flow"
    testRailTitle := s2l "C1234 Checkout flow v2"
    testRailCleanTitle := s2l "Checkout flow v2" }

/-- Claim C1: the comparison normalizes the remote title with the same
normalizer and identifier and records a `Difference` iff the result is
not string-equal to the local cleaned title; in scenario 3 (local
normalized title `Checkout flow`, remote raw title
`C1234 Checkout flow v2`) a `Difference` is produced with
`testRailCleanTitle = Checkout flow v2` and `fileTitle = Checkout flow`. -/
theorem compare_records_difference_iff :
    (∀ (testId : List Char) (fd : FileEntry) (rc : RemoteCase),
      ((compareCase testId fd rc).isSome ↔
        cleanTestCaseTitle rc.title testId ≠ fd.title) ∧
      (compareCase testId fd rc).elim True (diffFieldsOk testId fd rc)) ∧
    ∃ d, compareCase (s2l "C1234") scenario3Local scenario3Remote = some d ∧
      d.testRailCleanTitle = s2l "Checkout flow v2" ∧
      d.fileTitle = s2l "Checkout flow" := by
  constructor
  · intro testId fd rc
    constructor
    · unfold compareCase
      by_cases h : cleanTestCaseTitle rc.title testId = fd.title
      · simp [h]
      · simp [h]
    · unfold compareCase
      by_cases h : cleanTestCaseTitle rc.title testId = fd.title
      · simp [h]
      · simp [h, diffFieldsOk]
  · exact ⟨scenario3Diff, by decide, by decide, by decide⟩

/-! ### The comparison loop of `main` (lines 392-426) -/

/-- One iteration of the loop viewed as its contribution to the
difference list: a failed lookup contributes nothing, a successful one
contributes the result of the comparison step. -/
def diffStep (fetch : List Char → Option RemoteCase)
    (p : List Char × FileEntry) : Option Difference :=
  match fetch (caseNumberOf p.1) with
  | none => none
  | some rc => compareCase p.1 p.2 rc

/-- One iteration of the loop viewed as its contribution to the error
list: exactly the failed lookups contribute, with the fields pushed by
`main`. -/
def errStep (fetch : List Char → Option RemoteCase)
    (p : List Char × FileEntry) : Option ErrorRec :=
  match fetch (caseNumberOf p.1) with
  | none => some { id := p.1, filePath := p.2.filePath, fileTitle := p.2.title }
  | some _ => none

/-- The comparison loop of `main`: iterate over the local case table,
look up each case remotely, push an error record on failure and
otherwise push a difference when the cleaned titles differ.  The remote
service is modelled as an oracle from numeric id to an optional record
(`getTestRailCase` returns `null` on failure). -/
def processCases (fetch : List Char → Option RemoteCase) :
    List (List Char × FileEntry) → List Difference → List ErrorRec →
    List Difference × List ErrorRec
  | [], diffs, errs => (diffs, errs)
  | p :: rest, diffs, errs =>
    match fetch (caseNumberOf p.1) with
    | none =>
      processCases fetch rest diffs
        (errs ++ [{ id := p.1, filePath := p.2.filePath, fileTitle := p.2.title }])
    | some rc =>
      match compareCase p.1 p.2 rc with
      | some d => processCases fetch rest (diffs ++ [d]) errs
      | none => processCases fetch rest diffs errs

/-- Generalized accumulator form of the loop characterization. -/
theorem processCases_eq (fetch : List Char → Option RemoteCase) :
    ∀ (cases : List (List Char × FileEntry)) diffs errs,
      processCases fetch cases diffs errs
        = (diffs ++ cases.filterMap (diffStep fetch),
           errs ++ cases.filterMap (errStep fetch)) := by
  intro cases
  induction cases with
  | nil => intro diffs errs; simp [processCases]
  | cons p rest ih =>
    intro diffs errs
    cases hf : fetch (caseNumberOf p.1) with
    | none =>
      simp [processCases, hf, ih, List.filterMap_cons, diffStep, errStep]
    | some rc =>
      cases hc : compareCase p.1 p.2 rc with
      | none =>
        simp [processCases, hf, hc, ih, List.filterMap_cons, diffStep, errStep]
      | some d =>
        simp [processCases, hf, hc, ih, List.filterMap_cons, diffStep, errStep]

/-- Concrete oracle for the error-handling scenario: the lookup of
numeric id `1` fails, every other lookup succeeds with a fixed remote
title. -/
def fetchScenario4 (n : List Char) : Option RemoteCase :=
  if n = s2l "1" then none else some { title := s2l "C2 remote" }

/-- Concrete local case table for the error-handling scenario. -/
def scenario4Cases : List (List Char × FileEntry) :=
  [(s2l "C1", { title := s2l "alpha", originalTitle := s2l "C1 alpha",
                filePath := s2l "a.test.ts" }),
   (s2l "C2", { title := s2l "beta", originalTitle := s2l "C2 beta",
                filePath := s2l "b.test.ts" })]

/-- Claim C4: a failed remote lookup records the case in the error list
and no difference for it, and processing continues with the remaining
cases; the loop result is exactly the per-case contributions of all
cases, so a single failure never aborts the run.  Concretely, with the
first lookup failing and the second succeeding with a differing title,
the run still produces the second case's difference alongside the first
case's error record. -/
theorem fetch_failure_recorded_continue :
    (∀ (fetch : List Char → Option RemoteCase)
       (cases : List (List Char × FileEntry)),
      processCases fetch cases [] []
        = (cases.filterMap (diffStep fetch),
           cases.filterMap (errStep fetch))) ∧
    processCases fetchScenario4 scenario4Cases [] []
      = ([{ id := s2l "C2", caseNumber := s2l "2",
            filePath := s2l "b.test.ts", fileTitle := s2l "beta",
            fileOriginalTitle := s2l "C2 beta",
            testRailTitle := s2l "C2 remote",
            testRailCleanTitle := s2l "remote" }],
         [{ id := s2l "C1", filePath := s2l "a.test.ts",
            fileTitle := s2l "alpha" }]) := by
  constructor
  · intro fetch cases
    rw [processCases_eq]
    simp
  · decide

/-! ### The confirmation gate (`askForConfirmation`, lines 112-118) -/

/-- `askForConfirmation`: the answer is accepted exactly when
`answer.toLowerCase().trim() === 'y'`.  JavaScript `toLowerCase` agrees
with `Char.toLower` on the ASCII range exercised here. -/
def askForConfirmation (answer : List Char) : Bool :=
  decide (jsTrim (answer.map Char.toLower) = ['y'])

/-- The update phase of `main` runs exactly when at least one difference
was found and the confirmation prompt was answered affirmatively. -/
def updatePhaseRuns (differences : List Difference) (answer : List Char) :
    Bool :=
  !differences.isEmpty && askForConfirmation answer

/-- A throwaway concrete difference used to instantiate witnesses. -/
def someDiff : Difference :=
  { id := s2l "C1", caseNumber := s2l "1", filePath := s2l "a.test.ts",
    fileTitle := s2l "x", fileOriginalTitle := s2l "C1 x",
    testRailTitle := s2l "C1 y", testRailCleanTitle := s2l "y" }

/-- Claim C9: given at least one difference, the update phase runs iff
the answer, lowercased and trimmed, is exactly the single character `y`;
in particular the answer `yes` declines. -/
theorem update_phase_gate :
    (∀ (ds : List Difference) (answer : List Char), ds ≠ [] →
      (updatePhaseRuns ds answer = true ↔
        jsTrim (answer.map Char.toLower) = ['y'])) ∧
    askForConfirmation (s2l "yes") = false ∧
    updatePhaseRuns [someDiff] (s2l "yes") = false ∧
    updatePhaseRuns [someDiff] (s2l " Y ") = true := by
  refine ⟨?_, by decide, by decide, by decide⟩
  intro ds answer hds
  unfold updatePhaseRuns askForConfirmation
  cases ds with
  | nil => exact absurd rfl hds
  | cons d ds => simp

/-- Witness for `update_phase_gate` at a one-element difference list and
the answer `" Y "`. -/
theorem update_phase_gate_witness :
    [someDiff] ≠ [] ∧
    (updatePhaseRuns [someDiff] (s2l " Y ") = true ↔
      jsTrim ((s2l " Y ").map Char.toLower) = ['y']) :=
  ⟨List.cons_ne_nil _ _,
   update_phase_gate.1 [someDiff] (s2l " Y ") (List.cons_ne_nil _ _)⟩

/-! ### The title extractor (`analyzeTestFile`, lines 317-347)

The scanner embeds the repeated `exec` of the sticky global regex
`test\(['"]([^'"]+)['"]` over the file content: at each position it
attempts a match; on success it emits the captured group and resumes
after the closing quote, otherwise it advances one character.  The
fuel argument equals the input length, which every step strictly
decreases below, so the fuel is never exhausted. -/

/-- A quote character, single or double: the regex class `['"]`. -/
def isQuote (c : Char) : Bool := c = squote || c = dquote

/-- A non-quote character: the regex class `[^'"]`. -/
def notQuote (c : Char) : Bool := !(isQuote c)

/-- Attempt the regex `test\(['"]([^'"]+)['"]` at the current position:
the literal text `test(`, one quote character, a nonempty maximal run of
non-quote characters (the captured group) and one quote character, which
need not match the opening one.  Returns the captured group and the
remaining input after the closing quote. -/
def tryMatchAt (l : List Char) : Option (List Char × List Char) :=
  match l with
  | 't' :: 'e' :: 's' :: 't' :: '(' :: q :: rest =>
    if isQuote q then
      if (rest.takeWhile notQuote).isEmpty then none
      else
        match rest.dropWhile notQuote with
        | q2 :: rest2 =>
          if isQuote q2 then some (rest.takeWhile notQuote, rest2) else none
        | [] => none
    else none
  | _ => none

/-- Scan the content for all matches of the extractor regex, in order,
moving one character forward on a failed attempt and past the closing
quote on a successful one. -/
def scanTestsFuel : Nat → List Char → List (List Char)
  | 0, _ => []
  | _ + 1, [] => []
  | n + 1, c :: cs =>
    match tryMatchAt (c :: cs) with
    | some (title, rest) => title :: scanTestsFuel n rest
    | none => scanTestsFuel n cs

/-- All captured `test(...)` string literals of the content, in text
order. -/
def scanTests (content : List Char) : List (List Char) :=
  scanTestsFuel content.length content

/-- `testTitle.match(/C\d+/)?.[0]`: the leftmost occurrence of `C`
followed by a maximal nonempty run of decimal digits, if any. -/
def firstCaseId : List Char → Option (List Char)
  | [] => none
  | c :: rest =>
    if c = 'C' then
      if (rest.takeWhile Char.isDigit).isEmpty then firstCaseId rest
      else some ('C' :: rest.takeWhile Char.isDigit)
    else firstCaseId rest

/-- The in-memory case table: association list in insertion order,
modelling a JavaScript `Map` from identifier to record. -/
abbrev Table := List (List Char × FileEntry)

/-- `Map.prototype.set`: update the value in place if the key is
present, otherwise append a new entry. -/
def mapSet (m : Table) (k : List Char) (v : FileEntry) : Table :=
  if m.any (fun p => decide (p.1 = k)) then
    m.map (fun p => if p.1 = k then (k, v) else p)
  else m ++ [(k, v)]

/-- The keys of a table, in insertion order. -/
def keysT (m : Table) : List (List Char) := m.map Prod.fst

/-- `Map.prototype.get`: the value stored under a key, if any. -/
def lookupT (m : Table) (k : List Char) : Option FileEntry :=
  match m with
  | [] => none
  | p :: t => if p.1 = k then some p.2 else lookupT t k

/-- The record stored by `analyzeTestFile` for a matched literal. -/
def mkEntry (fp title tid : List Char) : FileEntry :=
  { title := cleanTestCaseTitle title tid
    originalTitle := title
    filePath := fp }

/-- The extractor loop body: for each captured literal, look for the
first `C\d+` substring; register the record under it when present,
skip the literal silently otherwise. -/
def analyzeGo (fp : List Char) (m : Table) : List (List Char) → Table
  | [] => m
  | title :: rest =>
    match firstCaseId title with
    | some tid => analyzeGo fp (mapSet m tid (mkEntry fp title tid)) rest
    | none => analyzeGo fp m rest

/-- `analyzeTestFile`: scan the content and build the case table. -/
def analyzeTestFile (fp content : List Char) : Table :=
  analyzeGo fp [] (scanTests content)

/-- The identifiers found in a list of captured literals, in order. -/
def idsOf (titles : List (List Char)) : List (List Char) :=
  titles.filterMap firstCaseId

/-- The merge loop of `main` (lines 377-383): fold each per-file table
into the aggregate table with `Map.set` semantics. -/
def mergeInto (acc : Table) (t : Table) : Table :=
  t.foldl (fun acc p => mapSet acc p.1 p.2) acc

/-- Merge the tables of all scanned files, in traversal order. -/
def mergeAll (tables : List Table) : Table :=
  tables.foldl mergeInto []

/-! #### Table lemmas -/

/-- A key absent from the key list makes the `any` test of `mapSet`
fail. -/
theorem any_key_eq_false {m : Table} {k : List Char} (h : k ∉ keysT m) :
    m.any (fun p => decide (p.1 = k)) = false := by
  cases hb : m.any (fun p => decide (p.1 = k)) with
  | false => rfl
  | true =>
    exfalso
    rw [List.any_eq_true] at hb
    obtain ⟨p, hp, hpk⟩ := hb
    rw [decide_eq_true_eq] at hpk
    exact h (List.mem_map.mpr ⟨p, hp, hpk⟩)

/-- Setting an absent key appends the new entry. -/
theorem mapSet_not_mem {m : Table} {k : List Char} (v : FileEntry)
    (h : k ∉ keysT m) : mapSet m k v = m ++ [(k, v)] := by
  unfold mapSet
  rw [any_key_eq_false h]
  simp

/-- Keys distribute over table append. -/
theorem keysT_append (m₁ m₂ : Table) :
    keysT (m₁ ++ m₂) = keysT m₁ ++ keysT m₂ := by
  simp [keysT]

/-- Lookup skips a block of entries none of which carries the key. -/
theorem lookupT_append_of_absent {m : Table} {k : List Char}
    (h : m.any (fun p => decide (p.1 = k)) = false) (tail : Table) :
    lookupT (m ++ tail) k = lookupT tail k := by
  induction m with
  | nil => rfl
  | cons p t ih =>
    simp only [List.any_cons, Bool.or_eq_false_iff] at h
    have hp : ¬ p.1 = k := by simpa using h.1
    simp only [List.cons_append, lookupT]
    rw [if_neg hp]
    exact ih h.2

/-- After an in-place update of a present key, lookup returns the new
value. -/
theorem lookupT_map_update {m : Table} {k : List Char} {v : FileEntry}
    (h : m.any (fun p => decide (p.1 = k)) = true) :
    lookupT (m.map (fun p => if p.1 = k then (k, v) else p)) k = some v := by
  induction m with
  | nil => simp at h
  | cons p t ih =>
    simp only [List.any_cons, Bool.or_eq_true] at h
    by_cases hp : p.1 = k
    · simp [List.map_cons, lookupT, hp]
    · have ht : t.any (fun p => decide (p.1 = k)) = true := by
        rcases h with h1 | h2
        · exact absurd (by simpa using h1) hp
        · exact h2
      simp only [List.map_cons, if_neg hp, lookupT]
      exact ih ht

/-- `Map.set` followed by `Map.get` of the same key returns the value
just written, whether or not the key was already present. -/
theorem lookupT_mapSet (m : Table) (k : List Char) (v : FileEntry) :
    lookupT (mapSet m k v) k = some v := by
  unfold mapSet
  cases hb : m.any (fun p => decide (p.1 = k)) with
  | true =>
    simp only [if_true]
    exact lookupT_map_update hb
  | false =>
    simp only [Bool.false_eq_true, if_false]
    rw [lookupT_append_of_absent hb]
    simp [lookupT]

/-- The keys produced by the extractor loop: under pairwise-distinct
identifiers every registration appends, so the final key list is the
initial one followed by the identifiers in discovery order. -/
theorem analyzeGo_keys (fp : List Char) :
    ∀ (titles : List (List Char)) (m : Table),
      (idsOf titles).Nodup →
      (∀ k ∈ idsOf titles, k ∉ keysT m) →
      keysT (analyzeGo fp m titles) = keysT m ++ idsOf titles := by
  intro titles
  induction titles with
  | nil => intro m _ _; simp [analyzeGo, idsOf]
  | cons title rest ih =>
    intro m hnd hdis
    cases hid : firstCaseId title with
    | none =>
      have hids : idsOf (title :: rest) = idsOf rest := by
        simp [idsOf, List.filterMap_cons, hid]
      rw [hids] at hnd hdis ⊢
      simp only [analyzeGo, hid]
      exact ih m hnd hdis
    | some tid =>
      have hids : idsOf (title :: rest) = tid :: idsOf rest := by
        simp [idsOf, List.filterMap_cons, hid]
      rw [hids] at hnd hdis ⊢
      have hnd' : (idsOf rest).Nodup := (List.nodup_cons.mp hnd).2
      have htid : tid ∉ idsOf rest := (List.nodup_cons.mp hnd).1
      have htid_m : tid ∉ keysT m := hdis tid (List.mem_cons_self _ _)
      have hdis' : ∀ k ∈ idsOf rest,
          k ∉ keysT (m ++ [(tid, mkEntry fp title tid)]) := by
        intro k hk hkmem
        rw [keysT_append] at hkmem
        rcases List.mem_append.mp hkmem with hkm | hk1
        · exact hdis k (List.mem_cons_of_mem _ hk) hkm
        · have hk_tid : k = tid := by simpa [keysT] using hk1
          exact htid (hk_tid ▸ hk)
      simp only [analyzeGo, hid]
      rw [mapSet_not_mem _ htid_m, ih _ hnd' hdis', keysT_append]
      simp [keysT, List.append_assoc]

/-- `takeWhile` keeps an all-true block up to the first failing
element. -/
theorem takeWhile_all_append {p : α → Bool} {body : List α} {q : α}
    (rest : List α) (hb : ∀ c ∈ body, p c = true) (hq : p q = false) :
    (body ++ q :: rest).takeWhile p = body := by
  induction body with
  | nil =>
    simp only [List.nil_append]
    exact List.takeWhile_cons_of_neg (by simp [hq])
  | cons c t ih =>
    have hc : p c = true := hb c (List.mem_cons_self _ _)
    rw [List.cons_append, List.takeWhile_cons_of_pos hc,
      ih (fun x hx => hb x (List.mem_cons_of_mem _ hx))]

/-- `dropWhile` drops an all-true block up to the first failing
element. -/
theorem dropWhile_all_append {p : α → Bool} {body : List α} {q : α}
    (rest : List α) (hb : ∀ c ∈ body, p c = true) (hq : p q = false) :
    (body ++ q :: rest).dropWhile p = q :: rest := by
  induction body with
  | nil =>
    simp only [List.nil_append]
    exact List.dropWhile_cons_of_neg (by simp [hq])
  | cons c t ih =>
    have hc : p c = true := hb c (List.mem_cons_self _ _)
    rw [List.cons_append, List.dropWhile_cons_of_pos hc,
      ih (fun x hx => hb x (List.mem_cons_of_mem _ hx))]

/-- No character of the list is a quote: the body of a matched
literal. -/
def noQuotes (l : List Char) : Bool := l.all (fun c => !(isQuote c))

/-- The content of end-to-end scenario 1:
`test('C1234 Login works', () => \x7b\x7d)`. -/
def scenario1Content : List Char :=
  s2l "test(" ++ squote ::
    (s2l "C1234 Login works" ++ squote ::
      (s2l ", () => " ++ [lbrace, rbrace, ')']))

/-- Claim C3: whenever the identifiers discovered in the scanned text
are pairwise distinct, the case table has exactly one entry per
identifier-bearing literal, keyed by those identifiers in discovery
order, and identifier-free literals contribute nothing; concretely the
scenario-1 input produces the single-entry table for `C1234` with title
`Login works` and original title `C1234 Login works`. -/
theorem extractor_distinct_ids :
    (∀ (content fp : List Char), (idsOf (scanTests content)).Nodup →
      keysT (analyzeTestFile fp content) = idsOf (scanTests content) ∧
      (analyzeTestFile fp content).length
        = (idsOf (scanTests content)).length) ∧
    analyzeTestFile (s2l "login.test.ts") scenario1Content
      = [(s2l "C1234",
          { title := s2l "Login works"
            originalTitle := s2l "C1234 Login works"
            filePath := s2l "login.test.ts" })] := by
  constructor
  · intro content fp hnd
    have hkeys : keysT (analyzeTestFile fp content)
        = idsOf (scanTests content) := by
      unfold analyzeTestFile
      have hgo := analyzeGo_keys fp (scanTests content) [] hnd
        (by intro k _; simp [keysT])
      simpa [keysT] using hgo
    refine ⟨hkeys, ?_⟩
    have hlen : (keysT (analyzeTestFile fp content)).length
        = (idsOf (scanTests content)).length := by rw [hkeys]
    simpa [keysT] using hlen
  · decide

/-- Witness for `extractor_distinct_ids` on the scenario-1 content. -/
theorem extractor_distinct_ids_witness :
    (idsOf (scanTests scenario1Content)).Nodup ∧
    keysT (analyzeTestFile (s2l "w.test.ts") scenario1Content)
      = idsOf (scanTests scenario1Content) ∧
    (analyzeTestFile (s2l "w.test.ts") scenario1Content).length
      = (idsOf (scanTests scenario1Content)).length :=
  ⟨by decide,
   (extractor_distinct_ids.1 scenario1Content (s2l "w.test.ts")
     (by decide)).1,
   (extractor_distinct_ids.1 scenario1Content (s2l "w.test.ts")
     (by decide)).2⟩

/-- A file fragment whose literal is `C7 first`. -/
def contentFirst : List Char :=
  s2l "test(" ++ squote :: (s2l "C7 first" ++ [squote, ')'])

/-- A file fragment whose literal is `C7 second` — same identifier. -/
def contentSecond : List Char :=
  s2l "test(" ++ squote :: (s2l "C7 second" ++ [squote, ')'])

/-- Claim C8: registering an identifier that is already present
overwrites the stored record (last write wins, no duplicate warning),
both inside one file and across files merged in order; the general
`Map.set`/`Map.get` law and both concrete collision scenarios. -/
theorem duplicate_id_last_write_wins :
    (∀ (m : Table) (k : List Char) (v : FileEntry),
      lookupT (mapSet m k v) k = some v) ∧
    analyzeTestFile (s2l "dup.test.ts") (contentFirst ++ ' ' :: contentSecond)
      = [(s2l "C7",
          { title := s2l "second"
            originalTitle := s2l "C7 second"
            filePath := s2l "dup.test.ts" })] ∧
    mergeAll [analyzeTestFile (s2l "a.test.ts") contentFirst,
              analyzeTestFile (s2l "b.test.ts") contentSecond]
      = [(s2l "C7",
          { title := s2l "second"
            originalTitle := s2l "C7 second"
            filePath := s2l "b.test.ts" })] :=
  ⟨lookupT_mapSet, by decide, by decide⟩

/-- Claim C10: the extractor pattern is the literal text `test(`, one
quote character, a nonempty run of non-quote characters, and one quote
character, with the opening and closing quotes not required to match:
a match succeeds even with mismatched quotes, and an empty literal never
matches. -/
theorem quote_pattern_matching :
    (∀ (q1 q2 : Char) (body rest : List Char),
      isQuote q1 = true → isQuote q2 = true → body ≠ [] →
      noQuotes body = true →
      tryMatchAt (s2l "test(" ++ q1 :: (body ++ q2 :: rest))
        = some (body, rest)) ∧
    (∀ (q1 q2 : Char) (rest : List Char),
      isQuote q1 = true → isQuote q2 = true →
      tryMatchAt (s2l "test(" ++ q1 :: q2 :: rest) = none) ∧
    scanTests (s2l "test(" ++ dquote :: (s2l "C1 title" ++ [squote]))
      = [s2l "C1 title"] ∧
    scanTests (s2l "test(" ++ [squote, squote, ')']) = [] := by
  refine ⟨?_, ?_, by decide, by decide⟩
  · intro q1 q2 body rest h1 h2 hbody hnq
    have hb : ∀ c ∈ body, notQuote c = true := by
      intro c hc
      have := List.all_eq_true.mp hnq c hc
      simpa [notQuote] using this
    have hq2 : notQuote q2 = false := by simp [notQuote, h2]
    have htake : (body ++ q2 :: rest).takeWhile notQuote = body :=
      takeWhile_all_append rest hb hq2
    have hdropq : (body ++ q2 :: rest).dropWhile notQuote = q2 :: rest :=
      dropWhile_all_append rest hb hq2
    have hbe : body.isEmpty = false := by
      cases body with
      | nil => exact absurd rfl hbody
      | cons c t => rfl
    show tryMatchAt
        ('t' :: 'e' :: 's' :: 't' :: '(' :: q1 :: (body ++ q2 :: rest))
      = some (body, rest)
    simp [tryMatchAt, h1, h2, htake, hdropq, hbe]
  · intro q1 q2 rest h1 h2
    have htake0 : (q2 :: rest).takeWhile notQuote = [] :=
      List.takeWhile_cons_of_neg (by simp [notQuote, h2])
    show tryMatchAt
        ('t' :: 'e' :: 's' :: 't' :: '(' :: q1 :: q2 :: rest) = none
    simp [tryMatchAt, h1, htake0]

/-- Witness for `quote_pattern_matching` with a double-quote opening and
single-quote closing delimiter. -/
theorem quote_pattern_matching_witness :
    isQuote dquote = true ∧ isQuote squote = true ∧
    s2l "C1 x" ≠ ([] : List Char) ∧ noQuotes (s2l "C1 x") = true ∧
    tryMatchAt (s2l "test(" ++ dquote :: (s2l "C1 x" ++ squote :: []))
      = some (s2l "C1 x", []) :=
  ⟨by decide, by decide, by decide, by decide,
   quote_pattern_matching.1 dquote squote (s2l "C1 x") []
     (by decide) (by decide) (by decide) (by decide)⟩

/-! ### Pagination (`makeApiCallWithPagination`, lines 157-180)

The remote service is modelled as an oracle from the requested offset to
the response for that offset; a response carries the extracted item list
(`response` itself when it is an array, else `response.cases`,
`response.projects` or `[]`) and whether the next-page indicator
`response._links?.next` is present.  The loop body breaks when
`!response._links?.next || items.length < limit` and otherwise requests
again at `offset + limit`; `morePages` is the negation of that break
condition.  The JavaScript loop can run forever on an adversarial
oracle, so the embedding carries explicit fuel and returns `none` when
it is exhausted. -/

/-- One page of a paginated response: the extracted item list and the
presence of the next-page indicator. -/
structure Page where
  items : List Nat
  hasNext : Bool
deriving DecidableEq, Repr

/-- The loop continues exactly when the break condition
`!response._links?.next || items.length < limit` fails. -/
def morePages (limit : Nat) (r : Page) : Bool :=
  r.hasNext && decide (limit ≤ r.items.length)

/-- The pagination loop: request at the current offset, stop with this
page's items when the break condition holds, otherwise concatenate with
the pages requested from `offset + limit` on.  Besides the concatenated
items it returns the list of requested offsets, in request order. -/
def paginateFuel (f : Nat → Page) (limit : Nat) :
    Nat → Nat → Option (List Nat × List Nat)
  | 0, _ => none
  | fuel + 1, offset =>
    if morePages limit (f offset) then
      match paginateFuel f limit fuel (offset + limit) with
      | none => none
      | some (rest, offs) => some ((f offset).items ++ rest, offset :: offs)
    else some ((f offset).items, [offset])

/-- Concatenation of the pages at the given offsets, in order. -/
def catItems (f : Nat → Page) : List Nat → List Nat
  | [] => []
  | o :: t => (f o).items ++ catItems f t

/-- The arithmetic progression of offsets: `n` requests starting at
`start`, each `limit` beyond the previous one. -/
def offsetsFrom (start limit : Nat) : Nat → List Nat
  | 0 => []
  | n + 1 => start :: offsetsFrom (start + limit) limit n

/-- All requested offsets except the final one. -/
def frontOf : List Nat → List Nat
  | [] => []
  | [_] => []
  | o :: t => o :: frontOf t

/-- The final requested offset. -/
def lastOf : List Nat → Option Nat
  | [] => none
  | [o] => some o
  | _ :: t => lastOf t

/-- An oracle whose first page is longer than the limit and still
carries the next-page indicator. -/
def overLimitOracle (o : Nat) : Page :=
  if o = 0 then { items := [1, 2], hasNext := true }
  else { items := [], hasNext := false }

/-- Claim C5 (counterexample): with `limit = 1` the first response has
two items — length not equal to the limit — and a present next-page
indicator, yet the loop issues a second request at offset 1: the code
continues whenever the page length is at least the limit, not exactly
equal to it. -/
theorem pagination_over_limit_counterexample :
    paginateFuel overLimitOracle 1 10 0 = some ([1, 2], [0, 1]) ∧
    (overLimitOracle 0).items.length ≠ 1 ∧
    (overLimitOracle 0).hasNext = true := by
  decide

/-- Claim C5 (amended): whenever the pagination loop terminates, it has
issued at least one request; every request except the last was answered
by a page with the next indicator present and length at least the limit
(the loop continues exactly under that condition and increases the
offset by the limit); the last page either lacks the indicator or is
shorter than the limit; and the returned list is the concatenation of
all pages in request order. -/
theorem pagination_characterization :
    ∀ (f : Nat → Page) (limit fuel offset : Nat) (res offs : List Nat),
      paginateFuel f limit fuel offset = some (res, offs) →
      offs ≠ [] ∧
      res = catItems f offs ∧
      offs = offsetsFrom offset limit offs.length ∧
      (∀ o ∈ frontOf offs, morePages limit (f o) = true) ∧
      (∀ o, lastOf offs = some o → morePages limit (f o) = false) := by
  intro f limit fuel
  induction fuel with
  | zero =>
    intro offset res offs h
    simp [paginateFuel] at h
  | succ n ih =>
    intro offset res offs h
    simp only [paginateFuel] at h
    cases hm : morePages limit (f offset) with
    | false =>
      rw [hm] at h
      simp only [Bool.false_eq_true, if_false, Option.some.injEq,
        Prod.mk.injEq] at h
      obtain ⟨hres, hoffs⟩ := h
      subst hres
      subst hoffs
      refine ⟨by simp, by simp [catItems], rfl, ?_, ?_⟩
      · intro o ho
        simp [frontOf] at ho
      · intro o ho
        simp only [lastOf, Option.some.injEq] at ho
        subst ho
        exact hm
    | true =>
      rw [hm] at h
      simp only [if_true] at h
      cases hrec : paginateFuel f limit n (offset + limit) with
      | none =>
        rw [hrec] at h
        simp at h
      | some pr =>
        obtain ⟨rest, offs'⟩ := pr
        rw [hrec] at h
        simp only [Option.some.injEq, Prod.mk.injEq] at h
        obtain ⟨hres, hoffs⟩ := h
        obtain ⟨hne, hcat, hprog, hfront, hlast⟩ :=
          ih (offset + limit) rest offs' hrec
        cases offs' with
        | nil => exact absurd rfl hne
        | cons o2 t2 =>
          subst hres
          subst hoffs
          refine ⟨by simp, by simp [catItems, hcat], ?_, ?_, ?_⟩
          · simp only [List.length_cons] at hprog
            show offset :: o2 :: t2
              = offset :: offsetsFrom (offset + limit) limit (t2.length + 1)
            rw [← hprog]
          · intro o ho
            simp only [frontOf, List.mem_cons] at ho
            rcases ho with rfl | ho
            · exact hm
            · exact hfront o ho
          · intro o ho
            exact hlast o (by simpa [lastOf] using ho)

/-- Witness for `pagination_characterization`: with `limit = 2` the
oracle's first page has exactly `limit` items and the indicator, so a
second request is made at offset 2, whose empty page stops the loop. -/
theorem pagination_characterization_witness :
    paginateFuel overLimitOracle 2 10 0 = some ([1, 2], [0, 2]) ∧
    ([1, 2] : List Nat) = catItems overLimitOracle [0, 2] :=
  ⟨rfl,
   (pagination_characterization overLimitOracle 2 10 0 [1, 2] [0, 2]
     rfl).2.1⟩
